import Mathlib

/-!
# Verification of the admission-list analyser

A shallow embedding, in Lean 4, of the core algorithms of the
`abit-app-list-analyser` repository (Rust): identifier normalization
(src/models.rs), the admission simulation passes and the popularity
computation (src/analyzer.rs), and the outcome/cutoff analysis
(src/main.rs), together with theorems settling the specification's
claims about them.

Modelling conventions:
* applicant identifiers (SNILS strings) are `List Char`; the claims that
  use normalization only as an opaque key function use the ASCII model
  `normalize_snils` (`Char.isAlphanum` / `Char.toUpper`); the claim about
  normalization itself is settled against `normalize_snils_full`, which is
  additionally exact on the non-ASCII fragment where Rust's Unicode
  `char::is_alphanumeric` / `str::to_uppercase` (with its SpecialCasing
  expansions) behaves differently from any per-character ASCII map — there
  idempotence fails, and the two models are proved to agree on ASCII input;
* `HashSet<String>` values (exclusion sets, seen-sets) are `Finset (List Char)`;
* `HashMap` lookups are association-list lookups (`lookupA`); an insertion
  sequence into a fresh map is modelled by consing, so earlier inserts of
  distinct keys are all visible; in the program the iteration orders of the
  maps feeding these functions are arbitrary, which the theorems reflect by
  quantifying over arbitrary list orders;
* `f64` scores are `ℚ` (the program only parses decimal literals, adds,
  divides and compares them — all exact on the values in range); the one
  place where a division by zero can occur, the applications-per-place
  ratio, is given the three-valued type `F64` recording the IEEE outcome;
* `Vec::sort_by` (a stable sort) is modelled by `List.insertionSort`
  (also stable).
-/

namespace AbitAnalyser

/-! ## Identity normalization — `normalize_snils`, src/models.rs:128-134 -/

/-- Embedding of `normalize_snils` (src/models.rs:128-134): keep only the
alphanumeric characters, then upper-case the remainder — restricted to the
ASCII behaviour of the Rust char classifiers. The rest of the development
uses this model only as an opaque key function (every concrete identifier it
is evaluated on is an ASCII digit string); the fuller embedding below,
`normalize_snils_full`, is the one the normalization claim itself is settled
against, and agrees with this one on ASCII input. -/
def normalize_snils (snils : List Char) : List Char :=
  (snils.filter Char.isAlphanum).map Char.toUpper

/-- Embedding of Rust `char::is_alphanumeric` (Unicode Alphabetic ∪ Nd/Nl/No):
exact on ASCII, and on the non-ASCII characters this development evaluates it
on — the Greek letters ΐ (U+0390) and Ι (U+0399) are alphabetic, while the
combining marks U+0308 and U+0301 (category Mn) are not. The full Unicode
table is not reproduced; no statement below evaluates the default branch. -/
def is_alphanumeric (c : Char) : Bool :=
  if c.toNat < 128 then c.isAlphanum
  else c == 'ΐ' || c == 'Ι'

/-- Embedding of the per-character mapping of Rust `str::to_uppercase`: the
full (SpecialCasing) uppercase mapping of one character, a string. Exact on
ASCII (where it is the simple one-character map) and on the characters this
development evaluates it on: U+0390 ΐ expands to Ι (U+0399) followed by the
combining marks U+0308 and U+0301; Ι and the combining marks are fixed. -/
def char_to_uppercase (c : Char) : List Char :=
  if c = 'ΐ' then ['Ι', Char.ofNat 0x308, Char.ofNat 0x301]
  else if c.toNat < 128 then [c.toUpper]
  else [c]

/-- Embedding of `normalize_snils` (src/models.rs:128-134) over the Unicode
fragment above: `chars().filter(is_alphanumeric)` then `to_uppercase()`
(which maps each character to its possibly-expanding uppercase string). -/
def normalize_snils_full (snils : List Char) : List Char :=
  (snils.filter is_alphanumeric).flatMap char_to_uppercase

/-- The basic-latin facts about `Char.toUpper` on the codepoints it moves,
established by checking the lower-case range exhaustively. -/
lemma char_lower_range_fact : ∀ n < 123, 97 ≤ n →
    (Char.isAlphanum (Char.ofNat (n - 32)) = true ∧
     Char.toUpper (Char.ofNat (n - 32)) = Char.ofNat (n - 32)) := by decide

lemma toUpper_eq_self_of_not_lower (c : Char) (h : ¬ (c.toNat ≥ 97 ∧ c.toNat ≤ 122)) :
    Char.toUpper c = c := by
  unfold Char.toUpper
  simp only [if_neg h]

lemma toUpper_eq_of_lower (c : Char) (h : c.toNat ≥ 97 ∧ c.toNat ≤ 122) :
    Char.toUpper c = Char.ofNat (c.toNat - 32) := by
  unfold Char.toUpper
  simp only [if_pos h]

lemma toUpper_toUpper (c : Char) : Char.toUpper (Char.toUpper c) = Char.toUpper c := by
  by_cases h : c.toNat ≥ 97 ∧ c.toNat ≤ 122
  · rw [toUpper_eq_of_lower c h]
    exact (char_lower_range_fact c.toNat (by omega) (by omega)).2
  · rw [toUpper_eq_self_of_not_lower c h]
    exact toUpper_eq_self_of_not_lower c h

lemma isAlphanum_toUpper (c : Char) (h : Char.isAlphanum c = true) :
    Char.isAlphanum (Char.toUpper c) = true := by
  by_cases h2 : c.toNat ≥ 97 ∧ c.toNat ≤ 122
  · rw [toUpper_eq_of_lower c h2]
    exact (char_lower_range_fact c.toNat (by omega) (by omega)).1
  · rwa [toUpper_eq_self_of_not_lower c h2]

/-- Two character lists agree letter-by-letter up to case. -/
def sameUpper : List Char → List Char → Bool
  | [], [] => true
  | a :: as, b :: bs => (Char.toUpper a == Char.toUpper b) && sameUpper as bs
  | _, _ => false

lemma map_toUpper_eq_of_sameUpper :
    ∀ xs ys : List Char, sameUpper xs ys = true →
      xs.map Char.toUpper = ys.map Char.toUpper
  | [], [], _ => rfl
  | a :: as, b :: bs, h => by
    simp only [sameUpper, Bool.and_eq_true, beq_iff_eq] at h
    simp only [List.map_cons, h.1, map_toUpper_eq_of_sameUpper as bs h.2]
  | [], _ :: _, h => by simp [sameUpper] at h
  | _ :: _, [], h => by simp [sameUpper] at h

lemma is_alphanumeric_ascii (c : Char) (h : c.toNat < 128) :
    is_alphanumeric c = c.isAlphanum := by
  unfold is_alphanumeric
  simp only [if_pos h]

lemma char_to_uppercase_ascii (c : Char) (h : c.toNat < 128) :
    char_to_uppercase c = [c.toUpper] := by
  unfold char_to_uppercase
  have hne : ¬ c = 'ΐ' := by
    intro he
    subst he
    exact absurd h (by decide)
  simp only [if_neg hne, if_pos h]

lemma toUpper_ascii_lt (c : Char) (h : c.toNat < 128) : (Char.toUpper c).toNat < 128 := by
  by_cases hl : c.toNat ≥ 97 ∧ c.toNat ≤ 122
  · rw [toUpper_eq_of_lower c hl]
    have hfact : ∀ n < 123, 97 ≤ n → (Char.ofNat (n - 32)).toNat < 128 := by decide
    exact hfact c.toNat (by omega) (by omega)
  · rw [toUpper_eq_self_of_not_lower c hl]
    exact h

/-- On ASCII input the Unicode-fragment embedding and the ASCII model agree:
every kept character's uppercase string is the single simple-mapped
character. -/
lemma normalize_snils_full_ascii :
    ∀ x : List Char, (∀ c ∈ x, c.toNat < 128) →
      normalize_snils_full x = normalize_snils x := by
  intro x
  induction x with
  | nil => intro _; rfl
  | cons c xs ih =>
    intro hx
    have hc : c.toNat < 128 := hx c (List.mem_cons_self c xs)
    have hxs : ∀ d ∈ xs, d.toNat < 128 := fun d hd => hx d (List.mem_cons_of_mem c hd)
    simp only [normalize_snils_full, normalize_snils, List.filter_cons,
      is_alphanumeric_ascii c hc]
    by_cases halnum : c.isAlphanum = true
    · simp only [halnum, if_pos trivial, List.flatMap_cons, List.map_cons,
        char_to_uppercase_ascii c hc, List.singleton_append]
      have := ih hxs
      simp only [normalize_snils_full, normalize_snils] at this
      rw [this]
    · simp only [halnum, Bool.false_eq_true, if_neg, ite_false]
      have := ih hxs
      simp only [normalize_snils_full, normalize_snils] at this
      rw [this]

/-- ASCII input normalizes to ASCII output. -/
lemma normalize_snils_output_ascii (x : List Char) (hx : ∀ c ∈ x, c.toNat < 128) :
    ∀ c ∈ normalize_snils x, c.toNat < 128 := by
  intro c hc
  obtain ⟨d, hd, hdc⟩ := List.mem_map.mp hc
  subst hdc
  exact toUpper_ascii_lt d (hx d (List.mem_filter.mp hd).1)

/-! ## The applicant record — `StudentRecord`, src/models.rs:63-77

Only the fields the analysed functions read are carried. `consent` and
`document` model the derived booleans `has_consent()` and
`has_original_document()` (src/models.rs:115-121; in Rust they are substring
tests on the raw strings). `average_score` models `get_numeric_score()`
(src/models.rs:108-113): `none` when the locale-formatted string does not
parse. The string fields the analysed code never reads (program name, study
form, subject scores, psychological test) are omitted. -/

structure StudentRecord where
  rank : Nat
  snils : List Char
  priority : Nat
  consent : Bool
  document : Bool
  average_score : Option ℚ
  available_places : Nat
deriving DecidableEq

/-! ## The per-offering admission step — `process_funding_type`, src/analyzer.rs:299-366 -/

/-- The record-selection loop of `process_funding_type`. The Rust function runs
it twice over the same records: first with `p r = r.document || r.consent`
(analyzer.rs:314-332, the eager pass), then, only when seats remain, with
`p r = !r.document && !r.consent` (analyzer.rs:336-354, the fill pass), both
passes sharing the `seen_snils` set and the `eligible_applicants` vector.
A record is skipped when its normalized identifier is already excluded or
already seen; a selected record is appended and its identifier marked seen;
the loop stops as soon as `available_places` records have been collected. -/
def select_loop (p : StudentRecord → Bool) (excluded : Finset (List Char))
    (available_places : Nat) :
    List StudentRecord → Finset (List Char) → List StudentRecord →
      List StudentRecord × Finset (List Char)
  | [], seen, eligible => (eligible, seen)
  | r :: rs, seen, eligible =>
    let n := normalize_snils r.snils
    if n ∈ excluded ∨ n ∈ seen then
      select_loop p excluded available_places rs seen eligible
    else if p r then
      let eligible2 := eligible ++ [r]
      let seen2 := insert n seen
      if available_places ≤ eligible2.length then (eligible2, seen2)
      else select_loop p excluded available_places rs seen2 eligible2
    else
      select_loop p excluded available_places rs seen eligible

/-- Embedding of `process_funding_type` (src/analyzer.rs:299-366). Reads the
offering capacity from the first record, runs the eager pass, then — only when
the eager pass left seats unfilled — the fill pass, admits the selected
records' identifiers and adds their normalized forms to the exclusion set.
The Rust mutates `excluded_normalized_snils` in place; here the updated set is
returned alongside the admitted list. -/
def process_funding_type (records : List StudentRecord)
    (excluded : Finset (List Char)) : List (List Char) × Finset (List Char) :=
  match records with
  | [] => ([], excluded)
  | r0 :: _ =>
    let available_places := r0.available_places
    let eagerOut :=
      select_loop (fun r => r.document || r.consent) excluded available_places records ∅ []
    let eligible_applicants :=
      if eagerOut.1.length < available_places then
        (select_loop (fun r => !r.document && !r.consent) excluded available_places
          records eagerOut.2 eagerOut.1).1
      else eagerOut.1
    let admitted := eligible_applicants.map (fun r => r.snils)
    (admitted, admitted.foldl (fun s x => insert (normalize_snils x) s) excluded)

/-- Shorthand for the normalized identifier of a record. -/
def nrm (r : StudentRecord) : List Char := normalize_snils r.snils

lemma select_loop_invariant (p : StudentRecord → Bool) (excluded : Finset (List Char))
    (places : Nat) :
    ∀ (rs : List StudentRecord) (seen : Finset (List Char)) (eligible : List StudentRecord),
      (eligible.map nrm).Nodup →
      (∀ r ∈ eligible, nrm r ∈ seen) →
      (∀ r ∈ eligible, nrm r ∉ excluded) →
      ((select_loop p excluded places rs seen eligible).1.map nrm).Nodup ∧
      (∀ r ∈ (select_loop p excluded places rs seen eligible).1,
          nrm r ∈ (select_loop p excluded places rs seen eligible).2) ∧
      (∀ r ∈ (select_loop p excluded places rs seen eligible).1, nrm r ∉ excluded) := by
  intro rs
  induction rs with
  | nil => intro seen eligible h1 h2 h3; exact ⟨h1, h2, h3⟩
  | cons r rs ih =>
    intro seen eligible h1 h2 h3
    by_cases hskip : normalize_snils r.snils ∈ excluded ∨ normalize_snils r.snils ∈ seen
    · simp only [select_loop, if_pos hskip]
      exact ih seen eligible h1 h2 h3
    · by_cases hp : p r = true
      · have hnotseen : normalize_snils r.snils ∉ seen := fun h => hskip (Or.inr h)
        have hnotexc : normalize_snils r.snils ∉ excluded := fun h => hskip (Or.inl h)
        have hnotelig : nrm r ∉ eligible.map nrm := by
          intro hmem
          obtain ⟨x, hx, hxe⟩ := List.mem_map.mp hmem
          have hseen : nrm x ∈ seen := h2 x hx
          rw [hxe] at hseen
          exact hnotseen hseen
        have h1' : ((eligible ++ [r]).map nrm).Nodup := by
          rw [List.map_append]
          refine List.Nodup.append h1 (List.nodup_singleton _) ?_
          intro a ha hb
          simp only [List.map_cons, List.map_nil, List.mem_singleton] at hb
          subst hb
          exact hnotelig ha
        have h2' : ∀ x ∈ eligible ++ [r], nrm x ∈ insert (normalize_snils r.snils) seen := by
          intro x hx
          rcases List.mem_append.mp hx with hx | hx
          · exact Finset.mem_insert_of_mem (h2 x hx)
          · simp only [List.mem_singleton] at hx
            subst hx
            exact Finset.mem_insert_self _ _
        have h3' : ∀ x ∈ eligible ++ [r], nrm x ∉ excluded := by
          intro x hx
          rcases List.mem_append.mp hx with hx | hx
          · exact h3 x hx
          · simp only [List.mem_singleton] at hx
            subst hx
            exact hnotexc
        by_cases hfull : places ≤ (eligible ++ [r]).length
        · simp only [select_loop, if_neg hskip, if_pos hp, if_pos hfull]
          exact ⟨h1', h2', h3'⟩
        · simp only [select_loop, if_neg hskip, if_pos hp, if_neg hfull]
          exact ih _ _ h1' h2' h3'
      · simp only [select_loop, if_neg hskip, if_neg hp]
        exact ih seen eligible h1 h2 h3

lemma select_loop_length (p : StudentRecord → Bool) (excluded : Finset (List Char))
    (places : Nat) :
    ∀ (rs : List StudentRecord) (seen : Finset (List Char)) (eligible : List StudentRecord),
      eligible.length < places →
      (select_loop p excluded places rs seen eligible).1.length ≤ places := by
  intro rs
  induction rs with
  | nil => intro seen eligible h; exact Nat.le_of_lt h
  | cons r rs ih =>
    intro seen eligible h
    by_cases hskip : normalize_snils r.snils ∈ excluded ∨ normalize_snils r.snils ∈ seen
    · simp only [select_loop, if_pos hskip]
      exact ih seen eligible h
    · by_cases hp : p r = true
      · by_cases hfull : places ≤ (eligible ++ [r]).length
        · simp only [select_loop, if_neg hskip, if_pos hp, if_pos hfull]
          simp only [List.length_append, List.length_cons, List.length_nil]
          omega
        · simp only [select_loop, if_neg hskip, if_pos hp, if_neg hfull]
          exact ih _ _ (by omega)
      · simp only [select_loop, if_neg hskip, if_neg hp]
        exact ih seen eligible h

/-- Membership in the exclusion set produced by the final admission loop of
`process_funding_type` (src/analyzer.rs:357-363). -/
lemma mem_foldl_insert_iff (l : List (List Char)) (s : Finset (List Char)) (y : List Char) :
    y ∈ l.foldl (fun t x => insert (normalize_snils x) t) s ↔
      y ∈ s ∨ ∃ x ∈ l, normalize_snils x = y := by
  induction l generalizing s with
  | nil => simp
  | cons a l ih =>
    simp only [List.foldl_cons, ih, Finset.mem_insert, List.mem_cons]
    constructor
    · rintro (⟨h | h⟩ | ⟨x, hx, hxy⟩)
      · exact Or.inr ⟨a, Or.inl rfl, h.symm⟩
      · exact Or.inl h
      · exact Or.inr ⟨x, Or.inr hx, hxy⟩
    · rintro (h | ⟨x, hx | hx, hxy⟩)
      · exact Or.inl (Or.inr h)
      · exact Or.inl (Or.inl (by rw [hx] at hxy; exact hxy.symm))
      · exact Or.inr ⟨x, hx, hxy⟩

lemma process_funding_type_spec (records : List StudentRecord)
    (excluded : Finset (List Char)) :
    (((process_funding_type records excluded).1.map normalize_snils).Nodup ∧
     (∀ x ∈ (process_funding_type records excluded).1, normalize_snils x ∉ excluded)) ∧
    (∀ y, y ∈ (process_funding_type records excluded).2 ↔
      y ∈ excluded ∨ ∃ x ∈ (process_funding_type records excluded).1,
        normalize_snils x = y) := by
  match records with
  | [] =>
    refine ⟨⟨List.nodup_nil, fun x hx => absurd hx (List.not_mem_nil x)⟩, fun y => ?_⟩
    simp [process_funding_type]
  | r0 :: rest =>
    have base := select_loop_invariant (fun r => r.document || r.consent) excluded
      r0.available_places (r0 :: rest) ∅ [] List.nodup_nil
      (fun r h => absurd h (List.not_mem_nil r))
      (fun r h => absurd h (List.not_mem_nil r))
    set eagerOut := select_loop (fun r => r.document || r.consent) excluded
      r0.available_places (r0 :: rest) ∅ [] with heager
    have elig :
        ∀ el : List StudentRecord,
          el = (if eagerOut.1.length < r0.available_places then
              (select_loop (fun r => !r.document && !r.consent) excluded r0.available_places
                (r0 :: rest) eagerOut.2 eagerOut.1).1
            else eagerOut.1) →
          (el.map nrm).Nodup ∧ (∀ r ∈ el, nrm r ∉ excluded) := by
      intro el hel
      by_cases hlt : eagerOut.1.length < r0.available_places
      · rw [if_pos hlt] at hel
        have fill := select_loop_invariant (fun r => !r.document && !r.consent) excluded
          r0.available_places (r0 :: rest) eagerOut.2 eagerOut.1 base.1 base.2.1 base.2.2
        exact hel ▸ ⟨fill.1, fill.2.2⟩
      · rw [if_neg hlt] at hel
        exact hel ▸ ⟨base.1, base.2.2⟩
    have hmain := elig _ rfl
    have hmap : ∀ el : List StudentRecord,
        (el.map (fun r => r.snils)).map normalize_snils = el.map nrm := by
      intro el
      simp [List.map_map, nrm, Function.comp]
    constructor
    · constructor
      · show ((_ : List (List Char)).map normalize_snils).Nodup
        rw [process_funding_type]
        simp only []
        rw [hmap]
        exact hmain.1
      · intro x hx
        rw [process_funding_type] at hx
        simp only [List.mem_map] at hx
        obtain ⟨r, hr, hrx⟩ := hx
        exact hrx ▸ hmain.2 r hr
    · intro y
      rw [process_funding_type]
      exact mem_foldl_insert_iff _ _ _

/-! ## Popularity metrics — `calculate_program_popularity`, src/analyzer.rs:369-408 -/

/-- The `f64` values reachable by the applications-per-place ratio: an exact
finite value, or one of the two IEEE outcomes of dividing a non-negative
finite value by zero (`x / 0.0 = +∞` for `x > 0`, `0.0 / 0.0 = NaN`). Rust
`f64` division never panics; this type records which value it produced. -/
inductive F64 where
  | finite (q : ℚ)
  | posInf
  | nan
deriving DecidableEq

/-- IEEE division of two non-negative finite doubles, exact on the values the
program divides (counts cast from integers). -/
def fdiv (a b : ℚ) : F64 :=
  if b = 0 then (if a = 0 then F64.nan else F64.posInf) else F64.finite (a / b)

/-- Embedding of `ProgramPopularity` (src/analyzer.rs:4-13). -/
structure ProgramPopularity where
  program_name : String
  applications_per_place : F64
  top_third_average_score : ℚ
  available_places : Nat
  total_applications : Nat
  total_applicants : Nat
  eager_applicants : List StudentRecord
deriving DecidableEq

/-- Embedding of `calculate_program_popularity` (src/analyzer.rs:369-408).
The Rust indexes `records[0]`; every caller passes a non-empty group, and the
`[]` branch here (capacity 0) is unreachable. The ratio
`total_applicants as f64 / available_places as f64` is taken verbatim —
the Rust performs this division with no zero-capacity guard. -/
def calculate_program_popularity (program_name : String)
    (records : List StudentRecord) : ProgramPopularity :=
  let available_places : Nat := match records with
    | [] => 0
    | r :: _ => r.available_places
  let total_applications := records.length
  let eager_applicants := records.filter (fun r => r.document || r.consent)
  let total_applicants := eager_applicants.length
  let applications_per_place := fdiv (total_applicants : ℚ) (available_places : ℚ)
  let top_count := min (available_places * 2) eager_applicants.length
  let top_scores := (eager_applicants.take top_count).filterMap
    (fun r => r.average_score)
  let top_third_average_score :=
    if top_scores = [] then 0 else top_scores.sum / (top_scores.length : ℚ)
  { program_name := program_name
    applications_per_place := applications_per_place
    top_third_average_score := top_third_average_score
    available_places := available_places
    total_applications := total_applications
    total_applicants := total_applicants
    eager_applicants := eager_applicants }

/-- The guarded per-entry applications-per-place ratio of
`generate_all_programs_popularity` (src/main.rs:533-536):
`if available_places > 0 { total_eager as f64 / available_places as f64 } else { 0.0 }`. -/
def entry_applications_per_place (available_places : Nat) (total_eager : Nat) : F64 :=
  if 0 < available_places then fdiv (total_eager : ℚ) (available_places : ℚ)
  else F64.finite 0

/-! ## The admission simulators — src/analyzer.rs:194-296 and 411-445 -/

/-- Association-list lookup, the embedding of `HashMap::get`. -/
def lookupA {α : Type} : List (String × α) → String → Option α
  | [], _ => none
  | (k, v) :: rest, key => if k = key then some v else lookupA rest key

/-- The budget funding-source key (src/analyzer.rs:274). -/
def budget_funding : String := "Бюджетное финансирование"

/-- The commercial funding-source key (src/analyzer.rs:283). -/
def commercial_funding : String := "Коммерческое финансирование"

/-- Embedding of `simulate_admission_with_funding_priority`
(src/analyzer.rs:258-296): walk the programs in popularity order; for each,
admit from the budget list first, then from the commercial list, threading one
global exclusion set through every call; record the two admitted lists,
concatenated, under the program's name. The `HashMap::insert` sequence into
the fresh result map is modelled by consing the entries in processing order
(program names, being keys of the grouping map, are distinct in every run). -/
def simulate_priority_go
    (groups : List (String × List (String × List StudentRecord))) :
    List ProgramPopularity → Finset (List Char) →
      List (String × List (List Char)) × Finset (List Char)
  | [], excluded => ([], excluded)
  | pop :: pops, excluded =>
    match lookupA groups pop.program_name with
    | none => simulate_priority_go groups pops excluded
    | some funding_groups =>
      let budgetOut := match lookupA funding_groups budget_funding with
        | some budget_records => process_funding_type budget_records excluded
        | none => ([], excluded)
      let commercialOut := match lookupA funding_groups commercial_funding with
        | some commercial_records => process_funding_type commercial_records budgetOut.2
        | none => ([], budgetOut.2)
      let restOut := simulate_priority_go groups pops commercialOut.2
      ((pop.program_name, budgetOut.1 ++ commercialOut.1) :: restOut.1, restOut.2)

def simulate_admission_with_funding_priority
    (program_popularities : List ProgramPopularity)
    (program_funding_groups : List (String × List (String × List StudentRecord))) :
    List (String × List (List Char)) :=
  (simulate_priority_go program_funding_groups program_popularities ∅).1

/-- Embedding of `simulate_admission_process` (src/analyzer.rs:411-445): for
each program in popularity order, take the first `available_places` eager
applicants not yet excluded, admit them, and exclude them globally. -/
def simulate_admission_process :
    List ProgramPopularity → Finset (List Char) → List (String × List (List Char))
  | [], _ => []
  | pop :: pops, excluded =>
    let eligible_applicants := (pop.eager_applicants.filter
        (fun r => !(decide (normalize_snils r.snils ∈ excluded)))).take
      pop.available_places
    let admitted := eligible_applicants.map (fun r => r.snils)
    let excluded2 := admitted.foldl (fun s x => insert (normalize_snils x) s) excluded
    (pop.program_name, admitted) :: simulate_admission_process pops excluded2

lemma pft_nodup (records : List StudentRecord) (excluded : Finset (List Char)) :
    ((process_funding_type records excluded).1.map normalize_snils).Nodup :=
  (process_funding_type_spec records excluded).1.1

lemma pft_not_excluded (records : List StudentRecord) (excluded : Finset (List Char)) :
    ∀ x ∈ (process_funding_type records excluded).1, normalize_snils x ∉ excluded :=
  (process_funding_type_spec records excluded).1.2

lemma pft_mem_out (records : List StudentRecord) (excluded : Finset (List Char))
    (y : List Char) :
    y ∈ (process_funding_type records excluded).2 ↔
      y ∈ excluded ∨ ∃ x ∈ (process_funding_type records excluded).1,
        normalize_snils x = y :=
  (process_funding_type_spec records excluded).2 y

lemma pft_mono (records : List StudentRecord) (excluded : Finset (List Char))
    (y : List Char) (hy : y ∈ excluded) : y ∈ (process_funding_type records excluded).2 :=
  (pft_mem_out records excluded y).mpr (Or.inl hy)

lemma pft_admitted_mem_out (records : List StudentRecord) (excluded : Finset (List Char))
    (x : List Char) (hx : x ∈ (process_funding_type records excluded).1) :
    normalize_snils x ∈ (process_funding_type records excluded).2 :=
  (pft_mem_out records excluded _).mpr (Or.inr ⟨x, hx, rfl⟩)

lemma process_funding_type_length (r0 : StudentRecord) (rest : List StudentRecord)
    (excluded : Finset (List Char)) (h : 1 ≤ r0.available_places) :
    (process_funding_type (r0 :: rest) excluded).1.length ≤ r0.available_places := by
  simp only [process_funding_type, List.length_map]
  by_cases hlt : (select_loop (fun r => r.document || r.consent) excluded
      r0.available_places (r0 :: rest) ∅ []).1.length < r0.available_places
  · rw [if_pos hlt]
    exact select_loop_length _ _ _ _ _ _ hlt
  · rw [if_neg hlt]
    exact select_loop_length _ _ _ _ _ _ (by simpa using h)

lemma simulate_admission_process_capacity :
    ∀ (pops : List ProgramPopularity) (excluded : Finset (List Char)),
      List.Forall₂ (fun pop entry =>
          entry.1 = pop.program_name ∧ entry.2.length ≤ pop.available_places)
        pops (simulate_admission_process pops excluded) := by
  intro pops
  induction pops with
  | nil => intro excluded; exact List.Forall₂.nil
  | cons pop pops ih =>
    intro excluded
    simp only [simulate_admission_process]
    refine List.Forall₂.cons ⟨rfl, ?_⟩ (ih _)
    simp only [List.length_map, List.length_take]
    exact min_le_left _ _

/-- No normalized identifier occurs in the admitted lists of two different
entries of the result. -/
def pairwiseDisjointNorms (res : List (String × List (List Char))) : Prop :=
  res.Pairwise (fun e1 e2 => ∀ x ∈ e1.2, ∀ y ∈ e2.2,
    normalize_snils x ≠ normalize_snils y)

lemma simulate_priority_go_invariant
    (groups : List (String × List (String × List StudentRecord))) :
    ∀ (pops : List ProgramPopularity) (excluded : Finset (List Char)),
      (∀ e ∈ (simulate_priority_go groups pops excluded).1, ∀ x ∈ e.2,
          normalize_snils x ∉ excluded) ∧
      (∀ e ∈ (simulate_priority_go groups pops excluded).1, ∀ x ∈ e.2,
          normalize_snils x ∈ (simulate_priority_go groups pops excluded).2) ∧
      (∀ e ∈ (simulate_priority_go groups pops excluded).1,
          (e.2.map normalize_snils).Nodup) ∧
      (∀ y ∈ excluded, y ∈ (simulate_priority_go groups pops excluded).2) ∧
      pairwiseDisjointNorms (simulate_priority_go groups pops excluded).1 := by
  intro pops
  induction pops with
  | nil =>
    intro excluded
    refine ⟨?_, ?_, ?_, fun y hy => hy, List.Pairwise.nil⟩ <;>
      · intro e he
        exact absurd he (List.not_mem_nil e)
  | cons pop pops ih =>
    intro excluded
    match hg : lookupA groups pop.program_name with
    | none =>
      simp only [simulate_priority_go, hg]
      exact ih excluded
    | some funding_groups =>
      simp only [simulate_priority_go, hg]
      set budgetOut := (match lookupA funding_groups budget_funding with
        | some budget_records => process_funding_type budget_records excluded
        | none => ([], excluded) :
          List (List Char) × Finset (List Char)) with hbudget
      set commercialOut := (match lookupA funding_groups commercial_funding with
        | some commercial_records => process_funding_type commercial_records budgetOut.2
        | none => ([], budgetOut.2) :
          List (List Char) × Finset (List Char)) with hcommercial
      have hb_not : ∀ x ∈ budgetOut.1, normalize_snils x ∉ excluded := by
        rw [hbudget]
        match lookupA funding_groups budget_funding with
        | some br => exact pft_not_excluded br excluded
        | none => intro x hx; exact absurd hx (List.not_mem_nil x)
      have hb_mem : ∀ x ∈ budgetOut.1, normalize_snils x ∈ budgetOut.2 := by
        rw [hbudget]
        match lookupA funding_groups budget_funding with
        | some br => exact fun x hx => pft_admitted_mem_out br excluded x hx
        | none => intro x hx; exact absurd hx (List.not_mem_nil x)
      have hb_nodup : (budgetOut.1.map normalize_snils).Nodup := by
        rw [hbudget]
        match lookupA funding_groups budget_funding with
        | some br => exact pft_nodup br excluded
        | none => exact List.nodup_nil
      have hb_mono : ∀ y ∈ excluded, y ∈ budgetOut.2 := by
        rw [hbudget]
        match lookupA funding_groups budget_funding with
        | some br => exact fun y hy => pft_mono br excluded y hy
        | none => exact fun y hy => hy
      have hc_not : ∀ x ∈ commercialOut.1, normalize_snils x ∉ budgetOut.2 := by
        rw [hcommercial]
        match lookupA funding_groups commercial_funding with
        | some cr => exact pft_not_excluded cr budgetOut.2
        | none => intro x hx; exact absurd hx (List.not_mem_nil x)
      have hc_mem : ∀ x ∈ commercialOut.1, normalize_snils x ∈ commercialOut.2 := by
        rw [hcommercial]
        match lookupA funding_groups commercial_funding with
        | some cr => exact fun x hx => pft_admitted_mem_out cr budgetOut.2 x hx
        | none => intro x hx; exact absurd hx (List.not_mem_nil x)
      have hc_nodup : (commercialOut.1.map normalize_snils).Nodup := by
        rw [hcommercial]
        match lookupA funding_groups commercial_funding with
        | some cr => exact pft_nodup cr budgetOut.2
        | none => exact List.nodup_nil
      have hc_mono : ∀ y ∈ budgetOut.2, y ∈ commercialOut.2 := by
        rw [hcommercial]
        match lookupA funding_groups commercial_funding with
        | some cr => exact fun y hy => pft_mono cr budgetOut.2 y hy
        | none => exact fun y hy => hy
      have hb_mem2 : ∀ x ∈ budgetOut.1, normalize_snils x ∈ commercialOut.2 :=
        fun x hx => hc_mono _ (hb_mem x hx)
      have hhead_not : ∀ x ∈ budgetOut.1 ++ commercialOut.1,
          normalize_snils x ∉ excluded := by
        intro x hx
        rcases List.mem_append.mp hx with hx | hx
        · exact hb_not x hx
        · exact fun hmem => hc_not x hx (hb_mono _ hmem)
      have hhead_mem : ∀ x ∈ budgetOut.1 ++ commercialOut.1,
          normalize_snils x ∈ commercialOut.2 := by
        intro x hx
        rcases List.mem_append.mp hx with hx | hx
        · exact hb_mem2 x hx
        · exact hc_mem x hx
      have hhead_nodup : ((budgetOut.1 ++ commercialOut.1).map normalize_snils).Nodup := by
        rw [List.map_append]
        refine List.Nodup.append hb_nodup hc_nodup ?_
        intro a ha hb
        obtain ⟨x, hx, hxa⟩ := List.mem_map.mp ha
        obtain ⟨y, hy, hya⟩ := List.mem_map.mp hb
        exact hc_not y hy (hya ▸ hxa ▸ hb_mem x hx)
      obtain ⟨ih1, ih2, ih3, ih4, ih5⟩ := ih commercialOut.2
      refine ⟨?_, ?_, ?_, ?_, ?_⟩
      · intro e he x hx
        rcases List.mem_cons.mp he with he | he
        · subst he
          exact hhead_not x hx
        · intro hmem
          exact ih1 e he x hx (hc_mono _ (hb_mono _ hmem))
      · intro e he x hx
        rcases List.mem_cons.mp he with he | he
        · subst he
          exact ih4 _ (hhead_mem x hx)
        · exact ih2 e he x hx
      · intro e he
        rcases List.mem_cons.mp he with he | he
        · subst he
          exact hhead_nodup
        · exact ih3 e he
      · intro y hy
        exact ih4 y (hc_mono _ (hb_mono _ hy))
      · refine List.Pairwise.cons ?_ ih5
        intro e he x hx y hy hxy
        exact ih1 e he y hy (hxy ▸ hhead_mem x hx)

/-! ## Target lookup — `check_target_applicant_results`, src/analyzer.rs:448-490 -/

/-- Embedding of the loop of `check_target_applicant_results`
(src/analyzer.rs:448-490): walk the `(program, records)` pairs, skipping any
pair whose program name was already processed; when the target's normalized
identifier occurs in a (non-skipped) pair's records, mark the target found
and record whether it is in that program's admitted list
(`unwrap_or(false)` when the program has no list). -/
def check_target_go (target : List Char)
    (final_results : List (String × List (List Char))) :
    List (String × List StudentRecord) → Finset String → Bool × List (String × Bool)
  | [], _ => (false, [])
  | (program_name, records) :: rest, processed =>
    if program_name ∈ processed then
      check_target_go target final_results rest processed
    else
      let processed2 := insert program_name processed
      if records.any (fun r => normalize_snils r.snils == normalize_snils target) then
        let admitted := match lookupA final_results program_name with
          | some l => l.any (fun s => normalize_snils s == normalize_snils target)
          | none => false
        let restOut := check_target_go target final_results rest processed2
        (true, (program_name, admitted) :: restOut.2)
      else
        check_target_go target final_results rest processed2

def check_target_applicant_results (target : List Char)
    (final_results : List (String × List (List Char)))
    (all_program_records : List (String × List StudentRecord)) :
    Bool × List (String × Bool) :=
  check_target_go target final_results all_program_records ∅

/-! ## Recommendation — `generate_recommendation`, src/analyzer.rs:540-586 -/

/-- The four outcome branches of `generate_recommendation`
(src/analyzer.rs:540-586). The Russian `format!` strings are abstracted to
constructors carrying the data they interpolate; `notFound` is the branch
"Абитуриент с СНИЛС '{}' не найден в списках поступающих…". -/
inductive Recommendation where
  | notFound (target : List Char)
  | lowChances (least_popular : Option ProgramPopularity)
  | singleProgram (name : String)
  | multiplePrograms (names : List String)
deriving DecidableEq

/-- `partial_cmp` on two ratio values: `none` (Rust: `None`, whose `unwrap`
panics) exactly when a NaN is involved. `+∞` compares above every finite
value. -/
def fpartial_cmp : F64 → F64 → Option Ordering
  | F64.nan, _ => none
  | _, F64.nan => none
  | F64.posInf, F64.posInf => some Ordering.eq
  | F64.posInf, F64.finite _ => some Ordering.gt
  | F64.finite _, F64.posInf => some Ordering.lt
  | F64.finite a, F64.finite b => some (compare a b)

/-- `Iterator::min_by(|a, b| a.applications_per_place.partial_cmp(&b…).unwrap())`
(src/analyzer.rs:557-559): `none` models the panic on an unordered (NaN)
comparison; no comparison is made for lists of length ≤ 1. Of equal minima the
first is kept. -/
def min_by_apps_go (acc : ProgramPopularity) :
    List ProgramPopularity → Option (Option ProgramPopularity)
  | [] => some (some acc)
  | y :: ys =>
    match fpartial_cmp acc.applications_per_place y.applications_per_place with
    | none => none
    | some ord => min_by_apps_go (if ord = Ordering.gt then y else acc) ys

def min_by_apps : List ProgramPopularity → Option (Option ProgramPopularity)
  | [] => some none
  | x :: xs => min_by_apps_go x xs

/-- Embedding of `generate_recommendation` (src/analyzer.rs:540-586); `none`
models a panic inside the low-chances branch's `min_by … unwrap`. -/
def generate_recommendation (target : List Char) (admitted_programs : List String)
    (target_applicant_found : Bool)
    (program_popularities : List ProgramPopularity) : Option Recommendation :=
  if target_applicant_found = false then some (Recommendation.notFound target)
  else if admitted_programs = [] then
    match min_by_apps program_popularities with
    | none => none
    | some least => some (Recommendation.lowChances least)
  else if admitted_programs.length = 1 then
    some (Recommendation.singleProgram (admitted_programs.headI))
  else
    some (Recommendation.multiplePrograms admitted_programs)

/-! ## Cutoff and status classification — `generate_final_cutoff_analysis`,
src/main.rs:1059-1133 -/

/-- One step of the `lowest_score` accumulator of src/main.rs:1066-1076. The
Rust starts from the sentinel `f64::MAX` and takes `lowest_score.min(score)`;
the sentinel still being in place is modelled as `none` (no parsed score can
equal `f64::MAX`). -/
def update_lowest : Option ℚ → ℚ → Option ℚ
  | none, s => some s
  | some l, s => some (min l s)

/-- Embedding of the cutoff-score computation (src/main.rs:1064-1079): for
each admitted identifier, scan the offering's records for normalized-equal
identifiers and fold their parseable scores into the minimum; `0.0` when the
admitted list is empty or the sentinel was never replaced. -/
def cutoff_score (admitted_snils_list : List (List Char))
    (all_matching_records : List StudentRecord) : ℚ :=
  if admitted_snils_list = [] then 0
  else
    (admitted_snils_list.foldl (fun acc a =>
      all_matching_records.foldl (fun acc2 r =>
        if normalize_snils r.snils = normalize_snils a then
          match r.average_score with
          | some s => update_lowest acc2 s
          | none => acc2
        else acc2) acc) (none : Option ℚ)).getD 0

/-- Embedding of the target status classification (src/main.rs:1090-1133),
given the offering's admitted list, its records, and the target's record in
this offering (the Rust only classifies when `target_record` was found).
The three strings are the `admission_status` values the Rust builds. -/
def admission_status (admitted_snils_list : List (List Char))
    (all_matching_records : List StudentRecord) (target_rec : StudentRecord)
    (target : List Char) : String :=
  let is_admitted := admitted_snils_list.any
    (fun s => normalize_snils s == normalize_snils target)
  let target_score := target_rec.average_score.getD 0
  let cutoff := cutoff_score admitted_snils_list all_matching_records
  if is_admitted then "Admitted"
  else if cutoff < target_score ∧ 0 < cutoff then "Admitted_ByScore_NotByPriority"
  else "Not_Admitted"

/-! ## The funding-filter simulator —
`simulate_admission_with_funding_filter`, src/analyzer.rs:194-255 -/

/-- The initial exclusion set of `simulate_admission_with_funding_filter`
(src/analyzer.rs:202-214): every identifier admitted anywhere in the budget
round **except** the target applicant (the target's normalized identifier is
never inserted, for any program). -/
def filter_initial_excluded (target : List Char)
    (budget_results : List (String × List (List Char))) : Finset (List Char) :=
  budget_results.foldl (fun s pr =>
    pr.2.foldl (fun s2 snils =>
      if normalize_snils target ≠ normalize_snils snils then
        insert (normalize_snils snils) s2
      else s2) s) ∅

/-- The per-program loop of `simulate_admission_with_funding_filter`
(src/analyzer.rs:216-252): clone the global exclusion set, drop the target
from the clone when the target is in this program's budget-admitted list,
admit from each funding list of the program threading the clone through, then
add the newly admitted identifiers to the global set. -/
def filter_go (target : List Char)
    (budget_exclusions : Option (List (String × List (List Char))))
    (groups : List (String × List (String × List StudentRecord))) :
    List ProgramPopularity → Finset (List Char) →
      List (String × List (List Char)) × Finset (List Char)
  | [], excluded => ([], excluded)
  | pop :: pops, excluded =>
    let local_excluded := match budget_exclusions with
      | some budget_results =>
        match lookupA budget_results pop.program_name with
        | some budget_admitted =>
          if budget_admitted.any
              (fun s => normalize_snils s == normalize_snils target) then
            excluded.erase (normalize_snils target)
          else excluded
        | none => excluded
      | none => excluded
    match lookupA groups pop.program_name with
    | none => filter_go target budget_exclusions groups pops excluded
    | some funding_groups =>
      let fgOut := funding_groups.foldl
        (fun (acc : List (List Char) × Finset (List Char)) fg =>
          let out := process_funding_type fg.2 acc.2
          (acc.1 ++ out.1, out.2)) ([], local_excluded)
      let excluded2 := fgOut.1.foldl
        (fun s x => insert (normalize_snils x) s) excluded
      let restOut := filter_go target budget_exclusions groups pops excluded2
      ((pop.program_name, fgOut.1) :: restOut.1, restOut.2)

def simulate_admission_with_funding_filter (target : List Char)
    (budget_exclusions : Option (List (String × List (List Char))))
    (program_popularities : List ProgramPopularity)
    (program_funding_groups : List (String × List (String × List StudentRecord))) :
    List (String × List (List Char)) :=
  let excluded0 := match budget_exclusions with
    | some budget_results => filter_initial_excluded target budget_results
    | none => ∅
  (filter_go target budget_exclusions program_funding_groups
    program_popularities excluded0).1

/-! ## The unified priority-based analyzer (spec §§3, 4.3, 4.5)

src/main.rs (`print_unified_summary`, `generate_program_popularity_report`,
`generate_final_cutoff_analysis`) reads `ProgramPopularity` fields
(`funding_source`, `average_score`, `top_candidates_average_priority`,
`total_eager_applicants`) and per-offering result keys that the `analyzer.rs`
present under src/ does not produce: src/ carries an older revision of the
analyzer, and the unified priority-based implementation main.rs calls is not
among the repository's files. Its data declarations survive in
src/models.rs (`ApplicantApplication`, `EagerApplicant`); the algorithm
itself is modelled from the spec below. -/

/-- From src/models.rs:79-90 (`ApplicantApplication`): one application of one
applicant to one offering. `average_score` is `f64` there (not optional). -/
structure ApplicantApplication where
  snils : List Char
  program_key : String
  priority : Nat
  rank : Nat
  average_score : ℚ
  has_consent : Bool
  has_original_document : Bool
deriving DecidableEq

/-- From src/models.rs:92-97 (`EagerApplicant`): an applicant with their
applications sorted ascending by `priority`, plus the mean rank across them.
This is the spec's `ApplicantPreferenceList` (§3); the per-applicant
`average_score` the spec adds is computed by `applicant_average_score`. -/
structure EagerApplicant where
  snils : List Char
  applications : List ApplicantApplication
  average_rank : ℚ
deriving DecidableEq

/-- Modelled from the spec (§3, ApplicantPreferenceList): `average_score` =
mean of the applications' scores (missing scores already defaulted to 0 when
`ApplicantApplication.average_score` was built). -/
def applicant_average_score (a : EagerApplicant) : ℚ :=
  if a.applications = [] then 0
  else (a.applications.map (fun app => app.average_score)).sum /
    (a.applications.length : ℚ)

/-- Modelled from the spec (§4.5 step 1): the global admission queue order —
higher `average_score` first; among equal scores, lower `average_rank`
first. -/
def queue_order (a b : EagerApplicant) : Prop :=
  applicant_average_score b < applicant_average_score a ∨
    (applicant_average_score a = applicant_average_score b ∧
      a.average_rank ≤ b.average_rank)

instance : DecidableRel queue_order := fun a b => by
  unfold queue_order
  infer_instance

instance : IsTotal EagerApplicant queue_order := by
  constructor
  intro a b
  rcases lt_trichotomy (applicant_average_score a) (applicant_average_score b) with
    h | h | h
  · exact Or.inr (Or.inl h)
  · rcases le_total a.average_rank b.average_rank with hr | hr
    · exact Or.inl (Or.inr ⟨h, hr⟩)
    · exact Or.inr (Or.inr ⟨h.symm, hr⟩)
  · exact Or.inl (Or.inl h)

instance : IsTrans EagerApplicant queue_order := by
  constructor
  intro a b c hab hbc
  rcases hab with hab | ⟨hab, hra⟩
  · rcases hbc with hbc | ⟨hbc, _⟩
    · exact Or.inl (lt_trans hbc hab)
    · exact Or.inl (hbc ▸ hab)
  · rcases hbc with hbc | ⟨hbc, hrb⟩
    · exact Or.inl (hab ▸ hbc)
    · exact Or.inr ⟨hab.trans hbc, le_trans hra hrb⟩

/-- Modelled from the spec (§4.5 step 1): sort the applicants into the global
admission queue (stable sort, as Rust's `sort_by`). -/
def sort_queue (applicants : List EagerApplicant) : List EagerApplicant :=
  List.insertionSort queue_order applicants

/-- Modelled from the spec (§4.5 step 3): scan one applicant's applications in
list order (ascending `priority`) and return the first offering whose current
admitted count is below its capacity, `none` when every listed offering is
full. -/
def first_fit (caps : String → Nat) (result : List (String × List (List Char))) :
    List ApplicantApplication → Option String
  | [] => none
  | app :: rest =>
    if ((lookupA result app.program_key).getD []).length < caps app.program_key then
      some app.program_key
    else first_fit caps result rest

/-- Append an admitted identifier to one offering's list. -/
def append_admitted (result : List (String × List (List Char))) (key : String)
    (snils : List Char) : List (String × List (List Char)) :=
  match result with
  | [] => [(key, [snils])]
  | (k, l) :: rest =>
    if k = key then (k, l ++ [snils]) :: rest
    else (k, l) :: append_admitted rest key snils

/-- Modelled from the spec (§4.5 steps 2-4): process one applicant — skip if
already admitted, otherwise admit to the first offering with room (if any),
record the identifier globally, and scan no further applications. -/
def unified_step (caps : String → Nat)
    (st : List (String × List (List Char)) × Finset (List Char))
    (a : EagerApplicant) :
    List (String × List (List Char)) × Finset (List Char) :=
  if normalize_snils a.snils ∈ st.2 then st
  else
    match first_fit caps st.1 a.applications with
    | none => st
    | some key => (append_admitted st.1 key a.snils,
        insert (normalize_snils a.snils) st.2)

/-- Modelled from the spec (§4.5): the unified single-pass allocation
simulator. -/
def simulate_admission_unified (caps : String → Nat)
    (applicants : List EagerApplicant) : List (String × List (List Char)) :=
  ((sort_queue applicants).foldl (unified_step caps) ([], ∅)).1

/-- Modelled from the spec (§§3, 4.3): the unified per-offering popularity
record read by src/main.rs:265-283 and 365-377. -/
structure UnifiedPopularity where
  program_name : String
  funding_source : String
  available_places : Nat
  total_eager_applicants : Nat
  average_score : ℚ
  top_candidates_average_priority : ℚ
deriving DecidableEq

/-- Modelled from the spec (§4.3): mean stated `priority` over the top
`min(2 × capacity, count)` eager records sorted ascending by `rank`
(0.0 for an empty subset). -/
def top_candidates_average_priority (available_places : Nat)
    (eager_records : List StudentRecord) : ℚ :=
  let sorted := List.insertionSort (fun a b => a.rank ≤ b.rank) eager_records
  let top := sorted.take (min (2 * available_places) eager_records.length)
  if top = [] then 0
  else (top.map (fun r => (r.priority : ℚ))).sum / (top.length : ℚ)

/-- Modelled from the spec (§4.3): mean parsed score over all eager records,
skipping unparseable scores, 0.0 when none parse. -/
def eager_average_score (eager_records : List StudentRecord) : ℚ :=
  let scores := eager_records.filterMap (fun r => r.average_score)
  if scores = [] then 0 else scores.sum / (scores.length : ℚ)

/-- Modelled from the spec (§4.3): build the popularity record of one
offering from its (deduplicated) records. -/
def calculate_unified_popularity (program_name funding_source : String)
    (available_places : Nat) (records : List StudentRecord) : UnifiedPopularity :=
  let eager_records := records.filter (fun r => r.document || r.consent)
  { program_name := program_name
    funding_source := funding_source
    available_places := available_places
    total_eager_applicants := eager_records.length
    average_score := eager_average_score eager_records
    top_candidates_average_priority :=
      top_candidates_average_priority available_places eager_records }

/-- The global program order key of the unified analyzer:
`top_candidates_average_priority` ascending. -/
def popularity_le (a b : UnifiedPopularity) : Prop :=
  a.top_candidates_average_priority ≤ b.top_candidates_average_priority

instance : DecidableRel popularity_le := fun a b => by
  unfold popularity_le
  infer_instance

instance : IsTotal UnifiedPopularity popularity_le :=
  ⟨fun a b => le_total a.top_candidates_average_priority b.top_candidates_average_priority⟩

instance : IsTrans UnifiedPopularity popularity_le :=
  ⟨fun _ _ _ hab hbc => le_trans hab hbc⟩

/-- Modelled from the spec (§4.3): order the offerings for processing and
reporting, by `top_candidates_average_priority` ascending. -/
def rank_programs (pops : List UnifiedPopularity) : List UnifiedPopularity :=
  List.insertionSort popularity_le pops

/-! ## Supporting lemmas for the cutoff computation -/

/-- The parseable scores the cutoff loop of src/main.rs:1066-1076 visits, in
visit order: for each admitted identifier, the scores of the
normalized-matching records. -/
def cutoff_scores (admitted_snils_list : List (List Char))
    (all_matching_records : List StudentRecord) : List ℚ :=
  admitted_snils_list.flatMap (fun a =>
    all_matching_records.filterMap (fun r =>
      if normalize_snils r.snils = normalize_snils a then r.average_score else none))

/-- The minimum of a list of scores, `0` for the empty list — the spec's
"minimum `numeric_score` among its admitted list (0.0 if … none parse)". -/
def minimum_or_zero (scores : List ℚ) : ℚ :=
  match scores with
  | [] => 0
  | s :: t => t.foldl min s

lemma inner_cutoff_foldl_eq (a : List Char) :
    ∀ (rs : List StudentRecord) (acc : Option ℚ),
      rs.foldl (fun acc2 r =>
          if normalize_snils r.snils = normalize_snils a then
            match r.average_score with
            | some s => update_lowest acc2 s
            | none => acc2
          else acc2) acc =
        (rs.filterMap (fun r =>
          if normalize_snils r.snils = normalize_snils a then r.average_score
          else none)).foldl update_lowest acc := by
  intro rs
  induction rs with
  | nil => intro acc; rfl
  | cons r rs ih =>
    intro acc
    by_cases hn : normalize_snils r.snils = normalize_snils a
    · match hs : r.average_score with
      | some s =>
        simp only [List.foldl_cons, List.filterMap_cons, if_pos hn, hs]
        exact ih _
      | none =>
        simp only [List.foldl_cons, List.filterMap_cons, if_pos hn, hs]
        exact ih _
    · simp only [List.foldl_cons, List.filterMap_cons, if_neg hn]
      exact ih _

lemma outer_cutoff_foldl_eq (all_matching_records : List StudentRecord) :
    ∀ (l : List (List Char)) (acc : Option ℚ),
      l.foldl (fun acc a =>
          all_matching_records.foldl (fun acc2 r =>
            if normalize_snils r.snils = normalize_snils a then
              match r.average_score with
              | some s => update_lowest acc2 s
              | none => acc2
            else acc2) acc) acc =
        (cutoff_scores l all_matching_records).foldl update_lowest acc := by
  intro l
  induction l with
  | nil => intro acc; rfl
  | cons a l ih =>
    intro acc
    simp only [List.foldl_cons, cutoff_scores, List.flatMap_cons, List.foldl_append]
    rw [inner_cutoff_foldl_eq a all_matching_records acc]
    exact ih _

lemma foldl_update_lowest_some :
    ∀ (t : List ℚ) (s : ℚ), t.foldl update_lowest (some s) = some (t.foldl min s) := by
  intro t
  induction t with
  | nil => intro s; rfl
  | cons x t ih => intro s; simp only [List.foldl_cons, update_lowest]; exact ih _

lemma foldl_update_lowest_getD (scores : List ℚ) :
    ((scores.foldl update_lowest none).getD 0) = minimum_or_zero scores := by
  match scores with
  | [] => rfl
  | s :: t =>
    simp only [List.foldl_cons, update_lowest, minimum_or_zero]
    rw [foldl_update_lowest_some]
    rfl

lemma foldl_min_le_init : ∀ (t : List ℚ) (s : ℚ), t.foldl min s ≤ s := by
  intro t
  induction t with
  | nil => intro s; exact le_refl s
  | cons x t ih =>
    intro s
    simp only [List.foldl_cons]
    exact le_trans (ih _) (min_le_left s x)

lemma foldl_min_le_mem : ∀ (t : List ℚ) (s : ℚ) (x : ℚ), x ∈ t → t.foldl min s ≤ x := by
  intro t
  induction t with
  | nil => intro s x hx; exact absurd hx (List.not_mem_nil x)
  | cons y t ih =>
    intro s x hx
    rcases List.mem_cons.mp hx with hx | hx
    · subst hx
      simp only [List.foldl_cons]
      exact le_trans (foldl_min_le_init t _) (min_le_right s x)
    · exact ih _ x hx

lemma foldl_min_mem : ∀ (t : List ℚ) (s : ℚ), t.foldl min s = s ∨ t.foldl min s ∈ t := by
  intro t
  induction t with
  | nil => intro s; exact Or.inl rfl
  | cons x t ih =>
    intro s
    simp only [List.foldl_cons]
    rcases ih (min s x) with h | h
    · rcases min_cases s x with ⟨he, _⟩ | ⟨he, _⟩
      · exact Or.inl (h.trans he)
      · refine Or.inr ?_
        rw [h, he]
        exact List.mem_cons_self x t
    · exact Or.inr (List.mem_cons_of_mem x h)

lemma cutoff_score_eq_minimum (admitted_snils_list : List (List Char))
    (all_matching_records : List StudentRecord) :
    cutoff_score admitted_snils_list all_matching_records =
      minimum_or_zero (cutoff_scores admitted_snils_list all_matching_records) := by
  match admitted_snils_list with
  | [] => rfl
  | a :: l =>
    show ((((a :: l).foldl _ (none : Option ℚ))).getD 0) = _
    rw [outer_cutoff_foldl_eq all_matching_records (a :: l) none]
    exact foldl_update_lowest_getD _

/-! ## Supporting lemmas for the target check and the unified simulator -/

lemma check_target_go_found_iff (target : List Char)
    (final_results : List (String × List (List Char))) :
    ∀ (all : List (String × List StudentRecord)) (processed : Finset String),
      (∀ pr ∈ all, pr.1 ∉ processed) → (all.map Prod.fst).Nodup →
      ((check_target_go target final_results all processed).1 = true ↔
        ∃ pr ∈ all, ∃ r ∈ pr.2,
          normalize_snils r.snils = normalize_snils target) := by
  intro all
  induction all with
  | nil =>
    intro processed _ _
    simp [check_target_go]
  | cons pr rest ih =>
    intro processed hproc hnodup
    match pr with
    | (program_name, records) =>
      have hskip : program_name ∉ processed :=
        hproc (program_name, records) (List.mem_cons_self _ _)
      by_cases hany :
          records.any (fun r => normalize_snils r.snils == normalize_snils target) = true
      · simp only [check_target_go, if_neg hskip, if_pos hany]
        constructor
        · intro _
          obtain ⟨r, hr, hre⟩ := List.any_eq_true.mp hany
          exact ⟨(program_name, records), List.mem_cons_self _ _, r, hr, beq_iff_eq.mp hre⟩
        · intro _
          trivial
      · simp only [check_target_go, if_neg hskip, if_neg hany]
        have hproc2 : ∀ q ∈ rest, q.1 ∉ insert program_name processed := by
          intro q hq
          simp only [Finset.mem_insert]
          push_neg
          constructor
          · intro he
            have : q.1 ∈ rest.map Prod.fst := List.mem_map_of_mem Prod.fst hq
            rw [he] at this
            simp only [List.map_cons, List.nodup_cons] at hnodup
            exact hnodup.1 this
          · exact hproc q (List.mem_cons_of_mem _ hq)
        have hnodup2 : (rest.map Prod.fst).Nodup := by
          simp only [List.map_cons, List.nodup_cons] at hnodup
          exact hnodup.2
        rw [ih (insert program_name processed) hproc2 hnodup2]
        constructor
        · intro ⟨q, hq, r, hr, hre⟩
          exact ⟨q, List.mem_cons_of_mem _ hq, r, hr, hre⟩
        · intro ⟨q, hq, r, hr, hre⟩
          rcases List.mem_cons.mp hq with hq | hq
          · subst hq
            have hc : records.any
                (fun r => normalize_snils r.snils == normalize_snils target) = true :=
              List.any_eq_true.mpr ⟨r, hr, beq_iff_eq.mpr hre⟩
            exact absurd hc hany
          · exact ⟨q, hq, r, hr, hre⟩

lemma first_fit_some_spec (caps : String → Nat)
    (result : List (String × List (List Char))) :
    ∀ (apps : List ApplicantApplication) (key : String),
      first_fit caps result apps = some key →
      ∃ i, ∃ h : i < apps.length,
        (apps.get ⟨i, h⟩).program_key = key ∧
        ((lookupA result key).getD []).length < caps key ∧
        ∀ j, ∀ hj : j < i,
          ¬ ((lookupA result ((apps.get ⟨j, Nat.lt_trans hj h⟩).program_key)).getD
              []).length < caps ((apps.get ⟨j, Nat.lt_trans hj h⟩).program_key) := by
  intro apps
  induction apps with
  | nil => intro key h; exact absurd h (by simp [first_fit])
  | cons app rest ih =>
    intro key h
    by_cases hroom : ((lookupA result app.program_key).getD []).length <
        caps app.program_key
    · simp only [first_fit, if_pos hroom, Option.some.injEq] at h
      subst h
      refine ⟨0, Nat.succ_pos _, rfl, hroom, ?_⟩
      intro j hj
      exact absurd hj (Nat.not_lt_zero j)
    · simp only [first_fit, if_neg hroom] at h
      obtain ⟨i, hilen, hkey, hcaproom, hprev⟩ := ih key h
      refine ⟨i + 1, Nat.succ_lt_succ hilen, hkey, hcaproom, ?_⟩
      intro j hj
      match j with
      | 0 => exact hroom
      | j + 1 => exact hprev j (Nat.lt_of_succ_lt_succ hj)

lemma first_fit_none_spec (caps : String → Nat)
    (result : List (String × List (List Char))) :
    ∀ (apps : List ApplicantApplication),
      first_fit caps result apps = none →
      ∀ app ∈ apps,
        ¬ ((lookupA result app.program_key).getD []).length < caps app.program_key := by
  intro apps
  induction apps with
  | nil => intro _ app happ; exact absurd happ (List.not_mem_nil app)
  | cons a rest ih =>
    intro h app happ
    by_cases hroom : ((lookupA result a.program_key).getD []).length < caps a.program_key
    · simp only [first_fit, if_pos hroom] at h
      exact Option.noConfusion h
    · simp only [first_fit, if_neg hroom] at h
      rcases List.mem_cons.mp happ with he | he
      · subst he
        exact hroom
      · exact ih h app he

lemma map_toUpper_idem (l : List Char) :
    (l.map Char.toUpper).map Char.toUpper = l.map Char.toUpper := by
  induction l with
  | nil => rfl
  | cons c l ih => simp only [List.map_cons, toUpper_toUpper, ih]

/-! ## Concrete fixtures for the closed instance theorems -/

/-- An eager record (original document and consent), identifier `"1"`,
capacity 1. -/
def recA : StudentRecord :=
  { rank := 1, snils := ['1'], priority := 1, consent := true, document := true,
    average_score := some 90, available_places := 1 }

/-- An eager record, identifier `"7"`, capacity 1. -/
def recB : StudentRecord :=
  { rank := 2, snils := ['7'], priority := 1, consent := false, document := true,
    average_score := some 80, available_places := 1 }

/-- An eager record on an offering with zero capacity. -/
def rec0 : StudentRecord :=
  { rank := 1, snils := ['3'], priority := 1, consent := true, document := false,
    average_score := some 70, available_places := 0 }

/-- A popularity entry for program `"X"` (only `program_name` matters to the
funding-round simulators). -/
def popX : ProgramPopularity :=
  { program_name := "X", applications_per_place := F64.finite 1,
    top_third_average_score := 90, available_places := 1,
    total_applications := 1, total_applicants := 1, eager_applicants := [recA] }

/-! ## The claims -/

/-- The ASCII model of the normalizer is idempotent and case-insensitive on
the alphanumeric core. -/
lemma ascii_model_normalize_props :
    (∀ x : List Char, normalize_snils (normalize_snils x) = normalize_snils x) ∧
    (∀ xs ys : List Char,
      sameUpper (xs.filter Char.isAlphanum) (ys.filter Char.isAlphanum) = true →
      normalize_snils xs = normalize_snils ys) := by
  constructor
  · intro x
    have hfil : ((x.filter Char.isAlphanum).map Char.toUpper).filter Char.isAlphanum =
        (x.filter Char.isAlphanum).map Char.toUpper := by
      apply List.filter_eq_self.mpr
      intro a ha
      obtain ⟨c, hc, hca⟩ := List.mem_map.mp ha
      subst hca
      exact isAlphanum_toUpper c (List.of_mem_filter hc)
    simp only [normalize_snils]
    rw [hfil, map_toUpper_idem]
  · intro xs ys h
    exact map_toUpper_eq_of_sameUpper _ _ h

/-- Claim C9 counterexample: over full Unicode, normalization is **not**
idempotent. `to_uppercase` expands ΐ (U+0390) by SpecialCasing to Ι followed
by the combining marks U+0308 and U+0301; those marks are not alphanumeric,
so a second normalization strips them. -/
theorem c9_unicode_not_idempotent :
    normalize_snils_full ['ΐ'] = ['Ι', Char.ofNat 0x308, Char.ofNat 0x301] ∧
    normalize_snils_full (normalize_snils_full ['ΐ']) = ['Ι'] ∧
    (normalize_snils_full (normalize_snils_full ['ΐ']) =
      normalize_snils_full ['ΐ']) = False := by
  refine ⟨by decide, by decide, eq_false ?_⟩
  decide

/-- Claim C9 (amended): restricted to ASCII input — every identifier the
program actually processes — normalization is idempotent, it is case- and
punctuation-insensitive, and the Unicode-fragment embedding agrees with the
ASCII model used as the key function elsewhere in this development. -/
theorem c9_ascii_normalize_idempotent_case_insensitive :
    (∀ x : List Char, (∀ c ∈ x, c.toNat < 128) →
      normalize_snils_full (normalize_snils_full x) = normalize_snils_full x ∧
      normalize_snils_full x = normalize_snils x) ∧
    (∀ xs ys : List Char, (∀ c ∈ xs, c.toNat < 128) → (∀ c ∈ ys, c.toNat < 128) →
      sameUpper (xs.filter Char.isAlphanum) (ys.filter Char.isAlphanum) = true →
      normalize_snils_full xs = normalize_snils_full ys) := by
  constructor
  · intro x hx
    have hagree := normalize_snils_full_ascii x hx
    have hout : ∀ c ∈ normalize_snils x, c.toNat < 128 :=
      normalize_snils_output_ascii x hx
    refine ⟨?_, hagree⟩
    rw [hagree, normalize_snils_full_ascii (normalize_snils x) hout]
    exact ascii_model_normalize_props.1 x
  · intro xs ys hxs hys h
    rw [normalize_snils_full_ascii xs hxs, normalize_snils_full_ascii ys hys]
    exact ascii_model_normalize_props.2 xs ys h

/-- Claim C9 witness: the spec's pair `"123-456 789 00"` / `"123456 78900"`
(ASCII) normalizes equal under the Unicode-fragment embedding. -/
theorem c9_ascii_witness :
    normalize_snils_full ("123-456 789 00".data) =
      normalize_snils_full ("123456 78900".data) :=
  c9_ascii_normalize_idempotent_case_insensitive.2 _ _ (by decide) (by decide)
    (by decide)

/-- Claim C10: `process_funding_type`, even on records with repeated
normalized identifiers and with no deduplication assumed, returns an admitted
list with pairwise-distinct normalized identifiers, none of which was in the
exclusion set at call time; on return the exclusion set has grown by exactly
the admitted identifiers' normalized forms. -/
theorem c10_process_funding_type_exclusion_discipline
    (records : List StudentRecord) (excluded : Finset (List Char)) :
    ((process_funding_type records excluded).1.map normalize_snils).Nodup ∧
    (∀ x ∈ (process_funding_type records excluded).1,
        normalize_snils x ∉ excluded) ∧
    (∀ x ∈ (process_funding_type records excluded).1,
        normalize_snils x ∈ (process_funding_type records excluded).2) ∧
    (∀ y, y ∈ (process_funding_type records excluded).2 ↔
      y ∈ excluded ∨ ∃ x ∈ (process_funding_type records excluded).1,
        normalize_snils x = y) :=
  ⟨pft_nodup records excluded, pft_not_excluded records excluded,
   fun x hx => pft_admitted_mem_out records excluded x hx,
   pft_mem_out records excluded⟩

/-- Claim C5: in the admission result of the unified (no-funding-filter) run —
`simulate_admission_with_funding_priority` — no normalized identifier appears
twice within one entry's admitted list, and no normalized identifier appears
in the lists of two different entries. -/
theorem c5_global_single_assignment
    (program_popularities : List ProgramPopularity)
    (program_funding_groups : List (String × List (String × List StudentRecord))) :
    (∀ e ∈ simulate_admission_with_funding_priority program_popularities
        program_funding_groups, (e.2.map normalize_snils).Nodup) ∧
    pairwiseDisjointNorms (simulate_admission_with_funding_priority
      program_popularities program_funding_groups) := by
  obtain ⟨-, -, h3, -, h5⟩ := simulate_priority_go_invariant program_funding_groups
    program_popularities ∅
  exact ⟨h3, h5⟩

/-- Claim C4 counterexample: on an offering with `available_places = 0`,
`process_funding_type` admits one applicant, so the admitted list exceeds the
capacity. -/
theorem c4_zero_capacity_overflow :
    rec0.available_places = 0 ∧ (process_funding_type [rec0] ∅).1.length = 1 := by
  refine ⟨rfl, ?_⟩
  decide

/-- Claim C4 (amended): the capacity bound holds for every offering with at
least one seat, for the funding-type passes (the primitive of both funding
simulators); the eager-only `simulate_admission_process` variant satisfies it
unconditionally. -/
theorem c4_capacity_bound (r0 : StudentRecord) (rest : List StudentRecord)
    (excluded : Finset (List Char)) (pops : List ProgramPopularity)
    (excluded2 : Finset (List Char)) (h : 1 ≤ r0.available_places) :
    (process_funding_type (r0 :: rest) excluded).1.length ≤ r0.available_places ∧
    List.Forall₂ (fun pop entry => entry.1 = pop.program_name ∧
        entry.2.length ≤ pop.available_places) pops
      (simulate_admission_process pops excluded2) :=
  ⟨process_funding_type_length r0 rest excluded h,
   simulate_admission_process_capacity pops excluded2⟩

/-- Claim C4 witness: the bound at a concrete one-seat offering. -/
theorem c4_capacity_bound_witness :
    (process_funding_type [recA] ∅).1.length ≤ recA.available_places ∧
    List.Forall₂ (fun pop entry => entry.1 = pop.program_name ∧
        entry.2.length ≤ pop.available_places) [popX]
      (simulate_admission_process [popX] ∅) :=
  c4_capacity_bound recA [] ∅ [popX] ∅ (by decide)

/-- Claim C6 counterexample: with zero capacity and one eager applicant,
`calculate_program_popularity` (src/analyzer.rs) divides unguarded and the
ratio is `+∞`, not the claimed substituted `0.0`. -/
theorem c6_unguarded_ratio_not_zero :
    rec0.available_places = 0 ∧
    (calculate_program_popularity "P" [rec0]).applications_per_place = F64.posInf ∧
    F64.posInf ≠ F64.finite 0 := by
  refine ⟨rfl, ?_, ?_⟩
  · decide
  · decide

/-- Claim C6 (amended): the zero-capacity guard exists only in
`generate_all_programs_popularity` (src/main.rs:533-536), where the ratio is
substituted with `0.0`; `calculate_program_popularity` (src/analyzer.rs)
divides unguarded and yields a non-finite value (NaN or `+∞` — no panic). -/
theorem c6_zero_capacity_guard (total_eager : Nat) (program_name : String)
    (r : StudentRecord) (rest : List StudentRecord) (h : r.available_places = 0) :
    entry_applications_per_place 0 total_eager = F64.finite 0 ∧
    ((calculate_program_popularity program_name (r :: rest)).applications_per_place =
        F64.nan ∨
      (calculate_program_popularity program_name (r :: rest)).applications_per_place =
        F64.posInf) := by
  constructor
  · simp [entry_applications_per_place]
  · simp only [calculate_program_popularity, h, Nat.cast_zero, fdiv, if_pos rfl]
    by_cases hz : (((r :: rest).filter (fun r => r.document || r.consent)).length : ℚ) = 0
    · rw [if_pos hz]
      exact Or.inl rfl
    · rw [if_neg hz]
      exact Or.inr rfl

/-- Claim C6 witness: the guarded ratio is `0.0` and the unguarded one is
non-finite, at a concrete zero-capacity offering. -/
theorem c6_zero_capacity_guard_witness :
    entry_applications_per_place 0 3 = F64.finite 0 ∧
    ((calculate_program_popularity "P" [rec0]).applications_per_place = F64.nan ∨
     (calculate_program_popularity "P" [rec0]).applications_per_place = F64.posInf) :=
  c6_zero_capacity_guard 3 "P" rec0 [] rfl

/-- Claim C7 counterexample: when the same program name occurs twice in the
input, the second list is skipped, so a target present only there is reported
not found even though a matching record exists in the input. -/
theorem c7_duplicate_program_not_found :
    (check_target_applicant_results ['7'] [] [("P", [recA]), ("P", [recB])]).1 =
      false ∧
    (∃ pr ∈ [("P", [recA]), ("P", [recB])], ∃ r ∈ pr.2,
      normalize_snils r.snils = normalize_snils ['7']) := by
  constructor
  · decide
  · exact ⟨("P", [recB]), by decide, recB, by decide, by decide⟩

/-- Claim C7 (amended): over inputs whose program names are pairwise distinct
(duplicated names have every list after the first skipped), the target is
reported found iff some record's normalized identifier equals the normalized
target; and a not-found analysis always yields the distinct explicit
`notFound` recommendation, not an error. -/
theorem c7_found_iff_and_not_found_outcome
    (target : List Char) (final_results : List (String × List (List Char)))
    (all : List (String × List StudentRecord))
    (hnodup : (all.map Prod.fst).Nodup) :
    ((check_target_applicant_results target final_results all).1 = true ↔
      ∃ pr ∈ all, ∃ r ∈ pr.2,
        normalize_snils r.snils = normalize_snils target) ∧
    (∀ (admitted_programs : List String) (pops : List ProgramPopularity),
      generate_recommendation target admitted_programs false pops =
        some (Recommendation.notFound target)) := by
  constructor
  · exact check_target_go_found_iff target final_results all ∅
      (fun pr _ => Finset.not_mem_empty pr.1) hnodup
  · intro admitted_programs pops
    rfl

/-- Claim C7 witness: the found-iff equivalence at a concrete input. -/
theorem c7_found_iff_witness :
    ((check_target_applicant_results ['1'] [] [("P", [recA])]).1 = true ↔
      ∃ pr ∈ [("P", [recA])], ∃ r ∈ pr.2,
        normalize_snils r.snils = normalize_snils ['1']) ∧
    (∀ (admitted_programs : List String) (pops : List ProgramPopularity),
      generate_recommendation ['1'] admitted_programs false pops =
        some (Recommendation.notFound ['1'])) :=
  c7_found_iff_and_not_found_outcome ['1'] [] [("P", [recA])] (by decide)

/-- Claim C8: the cutoff score equals the minimum parseable score among the
admitted (0 when the list is empty or nothing parses), and the status is
`Admitted` when the target is in the admitted list, else
`Admitted_ByScore_NotByPriority` exactly when the target's score strictly
exceeds a strictly positive cutoff, else `Not_Admitted`. -/
theorem c8_status_classification (admitted_snils_list : List (List Char))
    (all_matching_records : List StudentRecord)
    (target_rec : StudentRecord) (target : List Char) :
    cutoff_score admitted_snils_list all_matching_records =
      minimum_or_zero (cutoff_scores admitted_snils_list all_matching_records) ∧
    (cutoff_scores admitted_snils_list all_matching_records ≠ [] →
      minimum_or_zero (cutoff_scores admitted_snils_list all_matching_records) ∈
        cutoff_scores admitted_snils_list all_matching_records ∧
      ∀ x ∈ cutoff_scores admitted_snils_list all_matching_records,
        minimum_or_zero (cutoff_scores admitted_snils_list all_matching_records) ≤ x) ∧
    admission_status admitted_snils_list all_matching_records target_rec target =
      (if ∃ s ∈ admitted_snils_list, normalize_snils s = normalize_snils target then
        "Admitted"
      else if minimum_or_zero (cutoff_scores admitted_snils_list all_matching_records) <
            target_rec.average_score.getD 0 ∧
          0 < minimum_or_zero (cutoff_scores admitted_snils_list all_matching_records)
        then "Admitted_ByScore_NotByPriority"
      else "Not_Admitted") := by
  have hcut := cutoff_score_eq_minimum admitted_snils_list all_matching_records
  refine ⟨hcut, ?_, ?_⟩
  · intro hne
    match hs : cutoff_scores admitted_snils_list all_matching_records with
    | [] => exact absurd hs hne
    | s :: t =>
      constructor
      · show t.foldl min s ∈ s :: t
        rcases foldl_min_mem t s with h | h
        · rw [h]
          exact List.mem_cons_self s t
        · exact List.mem_cons_of_mem s h
      · intro x hx
        rcases List.mem_cons.mp hx with hx | hx
        · subst hx
          exact foldl_min_le_init t x
        · exact foldl_min_le_mem t s x hx
  · have hany : (admitted_snils_list.any
        (fun s => normalize_snils s == normalize_snils target) = true) ↔
        ∃ s ∈ admitted_snils_list, normalize_snils s = normalize_snils target := by
      simp [List.any_eq_true]
    simp only [admission_status, hcut]
    by_cases hadm : ∃ s ∈ admitted_snils_list,
        normalize_snils s = normalize_snils target
    · rw [if_pos (hany.mpr hadm), if_pos hadm]
    · rw [if_neg (fun hc => hadm (hany.mp hc)), if_neg hadm]

/-- Claim C3: the code evaluated at the carry-over failing input. The target
`"1"` holds a budget seat in program `"Y"`; per the claim (and the comment at
src/analyzer.rs:206-207) they must be excluded from every other program's
commercial seats, yet the commercial round still admits them to program
`"X"` — the code never inserts the target into the budget-derived exclusion
set (src/analyzer.rs:209-211). -/
theorem c3_carry_over_exclusion_missing :
    simulate_admission_with_funding_filter ['1'] (some [("Y", [['1']])]) [popX]
      [("X", [(commercial_funding, [recA])])] = [("X", [['1']])] := by
  decide

/-- Claim C1 (spec-modelled): the unified simulator's queue is sorted by
(`average_score` descending, `average_rank` ascending) and is a permutation of
the applicants; an already-admitted applicant's step is a no-op; an applicant
none of whose listed offerings has room stays unadmitted; otherwise the
applicant is admitted to precisely the first listed offering with room (every
earlier application full), their identifier recorded globally, with no
further effect of later applications. -/
theorem c1_unified_queue_and_first_preference (caps : String → Nat) :
    (∀ applicants : List EagerApplicant,
      (sort_queue applicants).Sorted queue_order ∧
      (sort_queue applicants).Perm applicants) ∧
    (∀ (st : List (String × List (List Char)) × Finset (List Char))
        (a : EagerApplicant), normalize_snils a.snils ∈ st.2 →
      unified_step caps st a = st) ∧
    (∀ (st : List (String × List (List Char)) × Finset (List Char))
        (a : EagerApplicant), normalize_snils a.snils ∉ st.2 →
      first_fit caps st.1 a.applications = none → unified_step caps st a = st) ∧
    (∀ (st : List (String × List (List Char)) × Finset (List Char))
        (a : EagerApplicant) (key : String), normalize_snils a.snils ∉ st.2 →
      first_fit caps st.1 a.applications = some key →
      unified_step caps st a =
        (append_admitted st.1 key a.snils, insert (normalize_snils a.snils) st.2)) ∧
    (∀ (result : List (String × List (List Char)))
        (apps : List ApplicantApplication) (key : String),
      first_fit caps result apps = some key →
      ∃ i, ∃ h : i < apps.length,
        (apps.get ⟨i, h⟩).program_key = key ∧
        ((lookupA result key).getD []).length < caps key ∧
        ∀ j, ∀ hj : j < i,
          ¬ ((lookupA result ((apps.get ⟨j, Nat.lt_trans hj h⟩).program_key)).getD
              []).length < caps ((apps.get ⟨j, Nat.lt_trans hj h⟩).program_key)) ∧
    (∀ (result : List (String × List (List Char)))
        (apps : List ApplicantApplication),
      first_fit caps result apps = none →
      ∀ app ∈ apps,
        ¬ ((lookupA result app.program_key).getD []).length <
          caps app.program_key) := by
  refine ⟨?_, ?_, ?_, ?_, first_fit_some_spec caps, first_fit_none_spec caps⟩
  · intro applicants
    exact ⟨List.sorted_insertionSort queue_order applicants,
      List.perm_insertionSort queue_order applicants⟩
  · intro st a h
    simp only [unified_step, if_pos h]
  · intro st a h hff
    simp only [unified_step, if_neg h, hff]
  · intro st a key h hff
    simp only [unified_step, if_neg h, hff]

/-- Claim C2 (spec-modelled): the unified analyzer's global program order is
by `top_candidates_average_priority` ascending — the ranked list is sorted by
that key and is a permutation of the input; this ranked list is what the
round-based simulators walk and the reports print. -/
theorem c2_programs_ordered_by_top_priority (pops : List UnifiedPopularity) :
    (rank_programs pops).Sorted popularity_le ∧ (rank_programs pops).Perm pops :=
  ⟨List.sorted_insertionSort popularity_le pops,
   List.perm_insertionSort popularity_le pops⟩

end AbitAnalyser
